import Mathlib

/-!
Shallow embedding of the B-spline curve editor core from main.cpp:
knot-vector construction (standardKnot), span location (delta), the
efficient B-spline evaluation loop (efficientBSpline), and the cursor and
screen coordinate transforms of the callback class.  Machine floats are
modelled as exact rationals; C++ vector reads are modelled with getD,
whose out-of-range default stands in for reads the source never performs
on the inputs the claims quantify over.
-/

/-- Points are glm vec3 values: three float coordinates, modelled as rationals. -/
abbrev Vec3 : Type := ℚ × ℚ × ℚ

/-- Knot-vector read at a C++ int index, as U[i] in the source. -/
def qget (U : List ℚ) (i : ℤ) : ℚ := U.getD i.toNat 0

/-- Control-point read at a C++ int index, as E[i] in the source. -/
def vget (E : List Vec3) (i : ℤ) : Vec3 := E.getD i.toNat 0

/-- The CPU_Geometry record of the source: parallel vertex and colour lists. -/
structure CPU_Geometry where
  verts : List Vec3
  cols : List Vec3
deriving DecidableEq

/-- The span condition U[j] <= u < U[j+1] tested by delta. -/
abbrev spanProp (U : List ℚ) (u : ℚ) (j : ℕ) : Prop :=
  U.getD j 0 ≤ u ∧ u < U.getD (j+1) 0

/-- The scan of delta, from index i with the given number of iterations left. -/
def deltaFrom (U : List ℚ) (u : ℚ) : ℕ → ℕ → ℤ
  | _, 0 => -1
  | i, fuel + 1 =>
    if U.getD i 0 ≤ u ∧ u < U.getD (i+1) 0 then (i : ℤ)
    else deltaFrom U u (i+1) fuel

/-- Source delta: scan i upward while i < m + k - 1, returning the first i
with U[i] <= u < U[i+1], and the sentinel -1 if the scan finds none. -/
def delta (U : List ℚ) (u : ℚ) (k m : ℕ) : ℤ :=
  deltaFrom U u 0 (m + k - 1)

/-- Closed form of the entries the standardKnot loop produces. -/
def knotEntry (k m i : ℕ) : ℚ :=
  if i < k then 0
  else if i < m + 1 then ((i : ℚ) - (k : ℚ) + 1) / ((m : ℚ) - (k : ℚ) + 2)
  else 1

/-- One iteration of the standardKnot loop body: push 0, previous + spacing,
or 1 depending on the index. -/
def knotStep (k m : ℕ) (spacing : ℚ) (U : List ℚ) (i : ℕ) : List ℚ :=
  if i < k then U ++ [0]
  else if k ≤ i ∧ i < m + 1 then U ++ [U.getD (i-1) 0 + spacing]
  else U ++ [1]

/-- Source standardKnot: the clamped knot sequence built by one pass of
i = 0 .. m+k, with spacing 1 / (m - k + 2). -/
def standardKnot (k m : ℕ) : List ℚ :=
  (List.range (m + k + 1)).foldl (knotStep k m (1 / ((m : ℚ) - (k : ℚ) + 2))) []

/-- The sampling loop of efficientBSpline: parameters u, u + u_inc, ... while
u < stop.  The source loop diverges for a nonpositive increment; the model
returns the empty list there (all claims assume u_inc > 0). -/
def sampleLoop (stop uinc u : ℚ) : List ℚ :=
  if h : 0 < uinc ∧ u < stop then u :: sampleLoop stop uinc (u + uinc) else []
termination_by (⌈(stop - u) / uinc⌉).toNat
decreasing_by
  obtain ⟨h1, h2⟩ := h
  have key : (stop - (u + uinc)) / uinc = (stop - u) / uinc - 1 := by
    field_simp
    ring
  have hpos : 0 < (stop - u) / uinc := div_pos (by linarith) h1
  have hone : (1 : ℤ) ≤ ⌈(stop - u) / uinc⌉ := Int.ceil_pos.mpr hpos
  rw [key, Int.ceil_sub_one]
  omega

/-- One step of the inner blending loop of efficientBSpline, on the state
(C, i): C[s] is replaced by omega * C[s] + (1 - omega) * C[s+1] with
omega = (u - U[i]) / (U[i + r - 1] - U[i]), and i is decremented. -/
def blendStep (U : List ℚ) (u : ℚ) (r : ℕ) (Ci : List Vec3 × ℤ) (s : ℕ) :
    List Vec3 × ℤ :=
  let omega := (u - qget U Ci.2) / (qget U (Ci.2 + (r : ℤ) - 1) - qget U Ci.2)
  (Ci.1.set s (omega • Ci.1.getD s 0 + (1 - omega) • Ci.1.getD (s+1) 0), Ci.2 - 1)

/-- The per-parameter evaluation step of efficientBSpline: d = delta(U,u,k,m),
seed C with E[d], E[d-1], ..., E[d-(k-2)], blend for r = k down to 3 with
s = 0 .. r-3 and running index i starting at d, and return C[0]. -/
def bsplinePoint (E : List Vec3) (U : List ℚ) (k m : ℕ) (u : ℚ) : Vec3 :=
  let d := delta U u k m
  let C0 := (List.range (k - 1)).map (fun i => vget E (d - (i : ℤ)))
  let C1 := ((List.range (k - 2)).map (fun t => k - t)).foldl
      (fun C r => ((List.range (r - 2)).foldl (blendStep U u r) (C, d)).1) C0
  C1.getD 0 0

/-- Source efficientBSpline: sample u from U[k-1] by u_inc while u < U[m+1],
emitting the evaluated point and the fixed colour (1, 0.75, 0.2) each step.
The weight vector M is accepted and never read, as in the source. -/
def efficientBSpline (E : List Vec3) (U : List ℚ) (M : List ℤ) (k m : ℕ)
    (uinc : ℚ) : CPU_Geometry :=
  let us := sampleLoop (U.getD (m+1) 0) uinc (U.getD (k-1) 0)
  { verts := us.map (bsplinePoint E U k m)
  , cols := us.map (fun _ => ((1 : ℚ), (3/4 : ℚ), (1/5 : ℚ))) }

/-- One blending round as the spec describes it: for s = 0 .. r-3 the updated
entry uses the explicit index i = d - s in place of the running index. -/
def specRound (U : List ℚ) (u : ℚ) (d : ℤ) (r : ℕ) (C : List Vec3) : List Vec3 :=
  (List.range (r - 2)).foldl
    (fun Cc s =>
      Cc.set s
        (((u - qget U (d - (s : ℤ))) /
            (qget U (d - (s : ℤ) + (r : ℤ) - 1) - qget U (d - (s : ℤ)))) • Cc.getD s 0 +
          (1 - (u - qget U (d - (s : ℤ))) /
            (qget U (d - (s : ℤ) + (r : ℤ) - 1) - qget U (d - (s : ℤ)))) • Cc.getD (s+1) 0))
    C

/-- The evaluation step exactly as the spec words it: seed C with the k-1
control points E[d], ..., E[d-(k-2)] in descending index order, apply the
rounds r = k down to 3 with omega taken at i = d - s, and read off C[0]. -/
def specPoint (E : List Vec3) (U : List ℚ) (k m : ℕ) (u : ℚ) : Vec3 :=
  let d := delta U u k m
  let C0 := (List.range (k - 1)).map (fun i => vget E (d - (i : ℤ)))
  (((List.range (k - 2)).map (fun t => k - t)).foldl
      (fun C r => specRound U u d r C) C0).getD 0 0

/-- Standard de Boor triangle for a degree-p B-spline, modelled from the
spec's reference to the standard de Boor point-evaluation algorithm: level-0
points are the control points, and each level-(r+1) point at index i is
alpha * P(r, i) + (1 - alpha) * P(r, i-1) with
alpha = (u - U[i]) / (U[i + p - r] - U[i]). -/
def deBoorLevel (E : List Vec3) (U : List ℚ) (u : ℚ) (p : ℕ) : ℕ → ℤ → Vec3
  | 0, i => vget E i
  | r + 1, i =>
    let alpha := (u - qget U i) / (qget U (i + (p : ℤ) - (r : ℤ)) - qget U i)
    alpha • deBoorLevel E U u p r i + (1 - alpha) • deBoorLevel E U u p r (i-1)

/-- Standard de Boor evaluation of the degree-p B-spline over E and U at u,
on the span U[d] <= u < U[d+1]: the apex P(p, d) of the triangle. -/
def deBoor (E : List Vec3) (U : List ℚ) (u : ℚ) (p : ℕ) (d : ℤ) : Vec3 :=
  deBoorLevel E U u p p d

/-- Source glPosToScreenCoords, with the window size passed explicitly:
map [-1,1] to [0,1], flip the vertical axis, scale by the window size. -/
def glPosToScreenCoords (w h : ℚ) (glPos : ℚ × ℚ) : ℚ × ℚ :=
  let scaledZeroOne : ℚ × ℚ := ((1/2) * (glPos.1 + 1), (1/2) * (glPos.2 + 1))
  let flippedY : ℚ × ℚ := (scaledZeroOne.1, 1 - scaledZeroOne.2)
  (flippedY.1 * w, flippedY.2 * h)

/-- Source getCursorPosGL, with the cursor position passed explicitly:
add the half-pixel-centre offset, scale to [0,1], flip the vertical axis,
map [0,1] to [-1,1]. -/
def getCursorPosGLAt (w h : ℚ) (screenPos : ℚ × ℚ) : ℚ × ℚ :=
  let centredPos : ℚ × ℚ := (screenPos.1 + 1/2, screenPos.2 + 1/2)
  let scaledToZeroOne : ℚ × ℚ := (centredPos.1 / w, centredPos.2 / h)
  let flippedY : ℚ × ℚ := (scaledToZeroOne.1, 1 - scaledToZeroOne.2)
  (2 * flippedY.1 - 1, 2 * flippedY.2 - 1)

/-- Unfolding of the sampling loop when the body runs. -/
theorem sampleLoop_pos {stop uinc u : ℚ} (h1 : 0 < uinc) (h2 : u < stop) :
    sampleLoop stop uinc u = u :: sampleLoop stop uinc (u + uinc) := by
  rw [sampleLoop]
  exact dif_pos ⟨h1, h2⟩

/-- Unfolding of the sampling loop when the guard fails. -/
theorem sampleLoop_nil {stop uinc u : ℚ} (h : ¬ (0 < uinc ∧ u < stop)) :
    sampleLoop stop uinc u = [] := by
  rw [sampleLoop]
  exact dif_neg h

/-- Every parameter the sampling loop visits lies in [u, stop). -/
theorem sampleLoop_mem {x : ℚ} : ∀ (stop uinc u : ℚ),
    x ∈ sampleLoop stop uinc u → u ≤ x ∧ x < stop := by
  intro stop uinc u
  induction u using sampleLoop.induct stop uinc with
  | case1 u h ih =>
    intro hx
    rw [sampleLoop_pos h.1 h.2] at hx
    rcases List.mem_cons.mp hx with he | ht
    · exact ⟨le_of_eq he.symm, he ▸ h.2⟩
    · obtain ⟨ha, hb⟩ := ih ht
      exact ⟨by linarith [h.1], hb⟩
  | case2 u h =>
    intro hx
    rw [sampleLoop_nil h] at hx
    exact absurd hx (List.not_mem_nil x)

/-- The scan returns -1 exactly when no index in its range satisfies the
span condition. -/
theorem deltaFrom_neg_iff (U : List ℚ) (u : ℚ) : ∀ (fuel i : ℕ),
    (deltaFrom U u i fuel = -1 ↔ ∀ j : ℕ, i ≤ j → j < i + fuel → ¬ spanProp U u j) := by
  intro fuel
  induction fuel with
  | zero =>
    intro i
    constructor
    · intro _ j h1 h2 _
      omega
    · intro _
      rfl
  | succ fuel ih =>
    intro i
    by_cases hp : spanProp U u i
    · simp only [deltaFrom, if_pos hp]
      constructor
      · intro habs
        exact absurd habs (by omega)
      · intro hall
        exact absurd hp (hall i le_rfl (by omega))
    · simp only [deltaFrom, if_neg hp]
      rw [ih (i+1)]
      constructor
      · intro hall j h1 h2
        rcases Nat.eq_or_lt_of_le h1 with he | hlt
        · exact he ▸ hp
        · exact hall j hlt (by omega)
      · intro hall j h1 h2
        exact hall j (by omega) (by omega)

/-- Whenever the scan returns a natural index, that index is in range,
satisfies the span condition, and is the first index in range to do so. -/
theorem deltaFrom_coe (U : List ℚ) (u : ℚ) : ∀ (fuel i j : ℕ),
    deltaFrom U u i fuel = (j : ℤ) →
    i ≤ j ∧ j < i + fuel ∧ spanProp U u j ∧
      ∀ jp : ℕ, i ≤ jp → jp < j → ¬ spanProp U u jp := by
  intro fuel
  induction fuel with
  | zero =>
    intro i j h
    simp only [deltaFrom] at h
    omega
  | succ fuel ih =>
    intro i j h
    by_cases hp : spanProp U u i
    · simp only [deltaFrom, if_pos hp] at h
      have hij : i = j := by exact_mod_cast h
      subst hij
      exact ⟨le_rfl, by omega, hp, fun jp h1 h2 => by omega⟩
    · simp only [deltaFrom, if_neg hp] at h
      obtain ⟨h1, h2, h3, h4⟩ := ih (i+1) j h
      refine ⟨by omega, by omega, h3, fun jp hjp1 hjp2 => ?_⟩
      by_cases he : jp = i
      · exact he ▸ hp
      · exact h4 jp (by omega) hjp2

/-- The scan returns the sentinel -1 or a natural index. -/
theorem deltaFrom_neg_or_coe (U : List ℚ) (u : ℚ) : ∀ (fuel i : ℕ),
    deltaFrom U u i fuel = -1 ∨ ∃ j : ℕ, deltaFrom U u i fuel = (j : ℤ) := by
  intro fuel
  induction fuel with
  | zero =>
    intro i
    exact Or.inl rfl
  | succ fuel ih =>
    intro i
    by_cases hp : spanProp U u i
    · exact Or.inr ⟨i, by simp only [deltaFrom, if_pos hp]⟩
    · simp only [deltaFrom, if_neg hp]
      exact ih (i+1)

/-- Reading a mapped range list inside its length yields the mapped value. -/
theorem getD_map_range (f : ℕ → ℚ) {n j : ℕ} (h : j < n) :
    ((List.range n).map f).getD j 0 = f j := by
  rw [List.getD_eq_getElem?_getD, List.getElem?_map, List.getElem?_range h]
  rfl

/-- Recurrence of the closed-form entries across the interior range. -/
theorem knotEntry_succ (k m n : ℕ) (hk : 1 ≤ k) (h1 : k ≤ n) (h2 : n < m + 1) :
    knotEntry k m n = knotEntry k m (n - 1) + 1 / ((m : ℚ) - (k : ℚ) + 2) := by
  unfold knotEntry
  rw [if_neg (by omega), if_pos h2]
  by_cases hcase : n - 1 < k
  · have hnk : n = k := by omega
    subst hnk
    rw [if_pos hcase]
    rw [show ((n : ℚ) - (n : ℚ) + 1) = 1 by ring, zero_add]
  · rw [if_neg hcase, if_pos (show n - 1 < m + 1 by omega)]
    have hn1 : ((n - 1 : ℕ) : ℚ) = (n : ℚ) - 1 := by
      have hn : 1 ≤ n := by omega
      push_cast [hn]
      ring
    rw [hn1, div_add_div_same]
    congr 1
    ring

/-- The standardKnot fold produces exactly the closed-form entries. -/
theorem knotAux (k m : ℕ) (hk : 1 ≤ k) : ∀ n : ℕ,
    (List.range n).foldl (knotStep k m (1 / ((m : ℚ) - (k : ℚ) + 2))) [] =
      (List.range n).map (knotEntry k m) := by
  intro n
  induction n with
  | zero => rfl
  | succ n ih =>
    rw [List.range_succ, List.foldl_append, List.map_append, ih]
    simp only [List.foldl_cons, List.foldl_nil, List.map_cons, List.map_nil]
    unfold knotStep
    by_cases h1 : n < k
    · rw [if_pos h1]
      have he : knotEntry k m n = 0 := by
        unfold knotEntry
        rw [if_pos h1]
      rw [he]
    · by_cases h2 : k ≤ n ∧ n < m + 1
      · rw [if_neg h1, if_pos h2]
        have hget : ((List.range n).map (knotEntry k m)).getD (n-1) 0 =
            knotEntry k m (n-1) := getD_map_range _ (by omega)
        rw [hget, ← knotEntry_succ k m n hk h2.1 h2.2]
      · rw [if_neg h1, if_neg h2]
        have he : knotEntry k m n = 1 := by
          unfold knotEntry
          rw [if_neg h1, if_neg (by omega)]
        rw [he]

/-- The knot vector has one entry per loop iteration. -/
theorem standardKnot_length (k m : ℕ) (hk : 1 ≤ k) :
    (standardKnot k m).length = m + k + 1 := by
  unfold standardKnot
  rw [knotAux k m hk]
  simp

/-- Entries of the knot vector agree with the closed form inside its length. -/
theorem standardKnot_getD (k m : ℕ) (hk : 1 ≤ k) {i : ℕ} (h : i < m + k + 1) :
    (standardKnot k m).getD i 0 = knotEntry k m i := by
  unfold standardKnot
  rw [knotAux k m hk]
  exact getD_map_range _ h

/-- Closed-form entries are nonnegative when m >= k - 1. -/
theorem knotEntry_nonneg (k m i : ℕ) (hkm : k ≤ m + 1) : 0 ≤ knotEntry k m i := by
  unfold knotEntry
  split_ifs with h1 h2
  · exact le_rfl
  · apply div_nonneg
    · have hik : (k : ℚ) ≤ (i : ℚ) := by exact_mod_cast (by omega : k ≤ i)
      linarith
    · have hkm1 : (k : ℚ) ≤ (m : ℚ) + 1 := by exact_mod_cast hkm
      linarith
  · norm_num

/-- Closed-form entries are at most one when m >= k - 1. -/
theorem knotEntry_le_one (k m i : ℕ) (hkm : k ≤ m + 1) : knotEntry k m i ≤ 1 := by
  unfold knotEntry
  split_ifs with h1 h2
  · norm_num
  · have hD : (0 : ℚ) < (m : ℚ) - (k : ℚ) + 2 := by
      have hkm1 : (k : ℚ) ≤ (m : ℚ) + 1 := by exact_mod_cast hkm
      linarith
    rw [div_le_one hD]
    have him : (i : ℚ) ≤ (m : ℚ) := by exact_mod_cast (by omega : i ≤ m)
    linarith
  · exact le_rfl

/-- Closed-form entries are monotone in the index when m >= k - 1. -/
theorem knotEntry_mono (k m : ℕ) (hkm : k ≤ m + 1) {a b : ℕ} (hab : a ≤ b) :
    knotEntry k m a ≤ knotEntry k m b := by
  by_cases ha1 : a < k
  · have he : knotEntry k m a = 0 := by
      unfold knotEntry
      rw [if_pos ha1]
    rw [he]
    exact knotEntry_nonneg k m b hkm
  · by_cases ha2 : a < m + 1
    · by_cases hb2 : b < m + 1
      · unfold knotEntry
        rw [if_neg ha1, if_pos ha2, if_neg (by omega : ¬ b < k), if_pos hb2]
        have hD : (0 : ℚ) < (m : ℚ) - (k : ℚ) + 2 := by
          have hkm1 : (k : ℚ) ≤ (m : ℚ) + 1 := by exact_mod_cast hkm
          linarith
        rw [div_le_div_iff_of_pos_right hD]
        have hcast : (a : ℚ) ≤ (b : ℚ) := by exact_mod_cast hab
        linarith
      · have he : knotEntry k m b = 1 := by
          unfold knotEntry
          rw [if_neg (by omega : ¬ b < k), if_neg hb2]
        rw [he]
        exact knotEntry_le_one k m a hkm
    · have hea : knotEntry k m a = 1 := by
        unfold knotEntry
        rw [if_neg ha1, if_neg ha2]
      have heb : knotEntry k m b = 1 := by
        unfold knotEntry
        rw [if_neg (by omega : ¬ b < k), if_neg (by omega : ¬ b < m + 1)]
      rw [hea, heb]

/-- On the standard knot vector, delta finds a valid span for every
parameter in [0, 1), and the span index lies between k-1 and m. -/
theorem delta_standardKnot (k m : ℕ) (hk : 2 ≤ k) (hkm : k ≤ m + 1) {u : ℚ}
    (h0 : 0 ≤ u) (h1 : u < 1) :
    ∃ j : ℕ, delta (standardKnot k m) u k m = (j : ℤ) ∧ k - 1 ≤ j ∧ j ≤ m ∧
      spanProp (standardKnot k m) u j := by
  have hk1 : (1 : ℕ) ≤ k := by omega
  have hstop : (standardKnot k m).getD (m+1) 0 = 1 := by
    rw [standardKnot_getD k m hk1 (by omega)]
    unfold knotEntry
    rw [if_neg (by omega), if_neg (by omega)]
  have hPex : ∃ n : ℕ, u < (standardKnot k m).getD n 0 := ⟨m + 1, by rw [hstop]; exact h1⟩
  have hfind := Nat.find_spec hPex
  have hfle : Nat.find hPex ≤ m + 1 := Nat.find_min' hPex (by rw [hstop]; exact h1)
  have hf1 : 1 ≤ Nat.find hPex := by
    by_contra hc
    have hf0 : Nat.find hPex = 0 := by omega
    rw [hf0] at hfind
    have hz : (standardKnot k m).getD 0 0 = 0 := by
      rw [standardKnot_getD k m hk1 (by omega)]
      unfold knotEntry
      rw [if_pos (by omega)]
    rw [hz] at hfind
    linarith
  have hprop : spanProp (standardKnot k m) u (Nat.find hPex - 1) := by
    constructor
    · have hnot := Nat.find_min hPex (show Nat.find hPex - 1 < Nat.find hPex by omega)
      exact le_of_not_lt hnot
    · have he : Nat.find hPex - 1 + 1 = Nat.find hPex := by omega
      rw [he]
      exact hfind
  have hscan : Nat.find hPex - 1 < m + k - 1 := by omega
  rcases deltaFrom_neg_or_coe (standardKnot k m) u (m + k - 1) 0 with hneg | ⟨j, hj⟩
  · exfalso
    exact (deltaFrom_neg_iff (standardKnot k m) u (m + k - 1) 0).mp hneg
      (Nat.find hPex - 1) (Nat.zero_le _) (by omega) hprop
  · obtain ⟨-, hjlt, hjprop, -⟩ := deltaFrom_coe (standardKnot k m) u (m + k - 1) 0 j hj
    refine ⟨j, hj, ?_, ?_, hjprop⟩
    · by_contra hlt
      have hj1k : j + 1 < k := by omega
      have hz : (standardKnot k m).getD (j+1) 0 = 0 := by
        rw [standardKnot_getD k m hk1 (by omega)]
        unfold knotEntry
        rw [if_pos hj1k]
      have hcon := hjprop.2
      rw [hz] at hcon
      linarith
    · by_contra hgt
      have hone : (standardKnot k m).getD j 0 = 1 := by
        rw [standardKnot_getD k m hk1 (by omega)]
        unfold knotEntry
        rw [if_neg (by omega), if_neg (by omega)]
      have hcon := hjprop.1
      rw [hone] at hcon
      linarith

/-- The running index of the inner blending loop equals d - s at the s-th
step: the paired-state fold equals the fold written with explicit indices. -/
theorem blend_fold (U : List ℚ) (u : ℚ) (r : ℕ) (d : ℤ) : ∀ (n : ℕ) (C : List Vec3),
    (List.range n).foldl (blendStep U u r) (C, d) =
      ((List.range n).foldl
        (fun Cc s =>
          Cc.set s
            (((u - qget U (d - (s : ℤ))) /
                (qget U (d - (s : ℤ) + (r : ℤ) - 1) - qget U (d - (s : ℤ)))) • Cc.getD s 0 +
              (1 - (u - qget U (d - (s : ℤ))) /
                (qget U (d - (s : ℤ) + (r : ℤ) - 1) - qget U (d - (s : ℤ)))) • Cc.getD (s+1) 0))
        C,
       d - (n : ℤ)) := by
  intro n
  induction n with
  | zero =>
    intro C
    simp
  | succ n ih =>
    intro C
    rw [List.range_succ, List.foldl_append, List.foldl_append, ih]
    simp only [List.foldl_cons, List.foldl_nil, blendStep]
    refine Prod.ext rfl ?_
    push_cast
    ring

/-- The per-parameter evaluation step equals its spec description with the
explicit index i = d - s. -/
theorem bsplinePoint_eq_specPoint (E : List Vec3) (U : List ℚ) (k m : ℕ) (u : ℚ) :
    bsplinePoint E U k m u = specPoint E U k m u := by
  unfold bsplinePoint specPoint specRound
  have h : ∀ (C : List Vec3) (r : ℕ),
      ((List.range (r - 2)).foldl (blendStep U u r) (C, delta U u k m)).1 =
        (List.range (r - 2)).foldl
          (fun Cc s =>
            Cc.set s
              (((u - qget U (delta U u k m - (s : ℤ))) /
                  (qget U (delta U u k m - (s : ℤ) + (r : ℤ) - 1) -
                    qget U (delta U u k m - (s : ℤ)))) • Cc.getD s 0 +
                (1 - (u - qget U (delta U u k m - (s : ℤ))) /
                  (qget U (delta U u k m - (s : ℤ) + (r : ℤ) - 1) -
                    qget U (delta U u k m - (s : ℤ)))) • Cc.getD (s+1) 0))
          C := by
    intro C r
    rw [blend_fold]
  simp only [h]

/-- C2: for k >= 2 and m >= k-1, standardKnot(k, m) has length m+k+1, is
non-decreasing, is 0 on indices below k, is 1 on indices from m+1 on, and
each interior entry exceeds the previous one by exactly 1/(m-k+2). -/
theorem standardKnot_clamped_uniform (k m : ℕ) (hk : 2 ≤ k) (hm : k - 1 ≤ m) :
    (standardKnot k m).length = m + k + 1 ∧
    (∀ i : ℕ, i + 1 < m + k + 1 →
      (standardKnot k m).getD i 0 ≤ (standardKnot k m).getD (i+1) 0) ∧
    (∀ i : ℕ, i < k → (standardKnot k m).getD i 0 = 0) ∧
    (∀ i : ℕ, m + 1 ≤ i → i < m + k + 1 → (standardKnot k m).getD i 0 = 1) ∧
    (∀ i : ℕ, k ≤ i → i < m + 1 →
      (standardKnot k m).getD i 0 =
        (standardKnot k m).getD (i-1) 0 + 1 / ((m : ℚ) - (k : ℚ) + 2)) := by
  have hk1 : (1 : ℕ) ≤ k := by omega
  have hkm : k ≤ m + 1 := by omega
  refine ⟨standardKnot_length k m hk1, ?_, ?_, ?_, ?_⟩
  · intro i hi
    rw [standardKnot_getD k m hk1 (by omega), standardKnot_getD k m hk1 (by omega)]
    exact knotEntry_mono k m hkm (by omega)
  · intro i hi
    rw [standardKnot_getD k m hk1 (by omega)]
    unfold knotEntry
    rw [if_pos hi]
  · intro i hi1 hi2
    rw [standardKnot_getD k m hk1 hi2]
    unfold knotEntry
    rw [if_neg (by omega), if_neg (by omega)]
  · intro i hi1 hi2
    rw [standardKnot_getD k m hk1 (by omega), standardKnot_getD k m hk1 (by omega)]
    exact knotEntry_succ k m i hk1 hi1 hi2

/-- Witness for C2 at k = 2, m = 2. -/
theorem standardKnot_clamped_uniform_witness :
    (standardKnot 2 2).length = 2 + 2 + 1 ∧
    (∀ i : ℕ, i + 1 < 2 + 2 + 1 →
      (standardKnot 2 2).getD i 0 ≤ (standardKnot 2 2).getD (i+1) 0) ∧
    (∀ i : ℕ, i < 2 → (standardKnot 2 2).getD i 0 = 0) ∧
    (∀ i : ℕ, 2 + 1 ≤ i → i < 2 + 2 + 1 → (standardKnot 2 2).getD i 0 = 1) ∧
    (∀ i : ℕ, 2 ≤ i → i < 2 + 1 →
      (standardKnot 2 2).getD i 0 =
        (standardKnot 2 2).getD (i-1) 0 + 1 / ((2 : ℚ) - (2 : ℚ) + 2)) :=
  standardKnot_clamped_uniform 2 2 (by norm_num) (by norm_num)

/-- C5: on the standard knot vector with k >= 2 and m >= k-1, delta returns
a natural span index (never the -1 sentinel) whose span contains u, for
every u in [U[k-1], U[m+1]). -/
theorem delta_finds_valid_span (k m : ℕ) (hk : 2 ≤ k) (hm : k - 1 ≤ m) (u : ℚ)
    (hlo : (standardKnot k m).getD (k-1) 0 ≤ u)
    (hhi : u < (standardKnot k m).getD (m+1) 0) :
    delta (standardKnot k m) u k m ≠ -1 ∧
    ∃ j : ℕ, delta (standardKnot k m) u k m = (j : ℤ) ∧
      (standardKnot k m).getD j 0 ≤ u ∧ u < (standardKnot k m).getD (j+1) 0 := by
  have hk1 : (1 : ℕ) ≤ k := by omega
  have hkm : k ≤ m + 1 := by omega
  have hstart : (standardKnot k m).getD (k-1) 0 = 0 := by
    rw [standardKnot_getD k m hk1 (by omega)]
    unfold knotEntry
    rw [if_pos (by omega)]
  have hstop : (standardKnot k m).getD (m+1) 0 = 1 := by
    rw [standardKnot_getD k m hk1 (by omega)]
    unfold knotEntry
    rw [if_neg (by omega), if_neg (by omega)]
  rw [hstart] at hlo
  rw [hstop] at hhi
  obtain ⟨j, hj, -, -, hsp⟩ := delta_standardKnot k m hk hkm hlo hhi
  refine ⟨?_, j, hj, hsp⟩
  rw [hj]
  omega

/-- Witness for C5 at k = 2, m = 1, u = 0. -/
theorem delta_finds_valid_span_witness :
    delta (standardKnot 2 1) 0 2 1 ≠ -1 ∧
    ∃ j : ℕ, delta (standardKnot 2 1) 0 2 1 = (j : ℤ) ∧
      (standardKnot 2 1).getD j 0 ≤ 0 ∧ (0 : ℚ) < (standardKnot 2 1).getD (j+1) 0 :=
  delta_finds_valid_span 2 1 (by norm_num) (by norm_num) 0 (by with_unfolding_all decide)
    (by with_unfolding_all decide)

/-- C6 counterexample: with U = [0,1,2,3], u = 5/2, k = 2, m = 1, index
m+k-1 = 2 satisfies U[2] <= u < U[3] and lies in the scan range the claim
states, yet delta returns the sentinel -1: the scan stops at m+k-2. -/
theorem delta_scan_counterexample :
    delta [(0 : ℚ), 1, 2, 3] (5/2) 2 1 = -1 ∧
    ([(0 : ℚ), 1, 2, 3].getD 2 0 ≤ (5/2 : ℚ) ∧
      (5/2 : ℚ) < [(0 : ℚ), 1, 2, 3].getD 3 0) ∧
    (2 : ℕ) ≤ 1 + 2 - 1 := by
  refine ⟨by with_unfolding_all decide, ⟨?_, ?_⟩, by norm_num⟩
  · with_unfolding_all decide
  · with_unfolding_all decide

/-- C6 amended: delta scans indices 0 to m+k-2 inclusive; it returns the
smallest index in that range satisfying U[i] <= u < U[i+1], and the
sentinel -1 exactly when no index in that range does. -/
theorem delta_scan_characterization (U : List ℚ) (u : ℚ) (k m : ℕ) :
    (delta U u k m = -1 ↔ ∀ j : ℕ, j < m + k - 1 → ¬ spanProp U u j) ∧
    (∀ j : ℕ, delta U u k m = (j : ℤ) →
      j < m + k - 1 ∧ spanProp U u j ∧ ∀ i : ℕ, i < j → ¬ spanProp U u i) := by
  constructor
  · rw [delta, deltaFrom_neg_iff U u (m + k - 1) 0]
    constructor
    · intro hall j h2
      exact hall j (Nat.zero_le j) (by omega)
    · intro hall j h1 h2
      exact hall j (by omega)
  · intro j hj
    obtain ⟨-, h2, h3, h4⟩ := deltaFrom_coe U u (m + k - 1) 0 j hj
    exact ⟨by omega, h3, fun i hi => h4 i (Nat.zero_le i) hi⟩

/-- Witness for the amended C6 at U = [0,1], u = 1/2, k = 1, m = 1. -/
theorem delta_scan_characterization_witness :
    (0 : ℕ) < 1 + 1 - 1 ∧ spanProp [(0 : ℚ), 1] (1/2) 0 ∧
      ∀ i : ℕ, i < 0 → ¬ spanProp [(0 : ℚ), 1] (1/2) i :=
  (delta_scan_characterization [(0 : ℚ), 1] (1/2) 1 1).2 0 (by with_unfolding_all decide)

/-- C10: efficientBSpline never reads its weight vector M, so its output is
identical for any two weight vectors. -/
theorem efficientBSpline_ignores_M (E : List Vec3) (U : List ℚ)
    (M1 M2 : List ℤ) (k m : ℕ) (uinc : ℚ) :
    efficientBSpline E U M1 k m uinc = efficientBSpline E U M2 k m uinc := rfl

/-- C4: for every input, the vertex sequence of efficientBSpline is exactly
the spec-described evaluation (seed E[d] down to E[d-(k-2)], blend rounds
r = k down to 3 with omega at i = d - s, emit the final C[0]) applied to
each sampled parameter in order. -/
theorem efficientBSpline_matches_description (E : List Vec3) (U : List ℚ)
    (M : List ℤ) (k m : ℕ) (uinc : ℚ) :
    (efficientBSpline E U M k m uinc).verts =
      (sampleLoop (U.getD (m+1) 0) uinc (U.getD (k-1) 0)).map (specPoint E U k m) := by
  unfold efficientBSpline
  have hfun : bsplinePoint E U k m = specPoint E U k m :=
    funext (bsplinePoint_eq_specPoint E U k m)
  rw [hfun]

/-- C7: with a nonpositive sampling domain the curve is the empty polyline;
with a nonempty domain no wider than u_inc it is a single point; and for
m < k-1 the standard knot vector yields U[k-1] = U[m+1] = 0, hence the
empty case. -/
theorem efficientBSpline_degenerate_domains :
    (∀ (E : List Vec3) (U : List ℚ) (M : List ℤ) (k m : ℕ) (uinc : ℚ),
      U.getD (m+1) 0 ≤ U.getD (k-1) 0 →
      (efficientBSpline E U M k m uinc).verts = []) ∧
    (∀ (E : List Vec3) (U : List ℚ) (M : List ℤ) (k m : ℕ) (uinc : ℚ),
      0 < uinc → U.getD (k-1) 0 < U.getD (m+1) 0 →
      U.getD (m+1) 0 - U.getD (k-1) 0 ≤ uinc →
      (efficientBSpline E U M k m uinc).verts.length = 1) ∧
    (∀ k m : ℕ, 2 ≤ k → m + 1 < k →
      (standardKnot k m).getD (k-1) 0 = 0 ∧ (standardKnot k m).getD (m+1) 0 = 0) := by
  refine ⟨?_, ?_, ?_⟩
  · intro E U M k m uinc hle
    unfold efficientBSpline
    rw [sampleLoop_nil (fun hc => absurd hc.2 (not_lt.mpr hle))]
    rfl
  · intro E U M k m uinc huinc hlt hnarrow
    unfold efficientBSpline
    rw [sampleLoop_pos huinc hlt,
      sampleLoop_nil (fun hc => absurd hc.2 (by linarith))]
    rfl
  · intro k m hk hmk
    have hk1 : (1 : ℕ) ≤ k := by omega
    constructor
    · rw [standardKnot_getD k m hk1 (by omega)]
      unfold knotEntry
      rw [if_pos (by omega)]
    · rw [standardKnot_getD k m hk1 (by omega)]
      unfold knotEntry
      rw [if_pos (by omega)]

/-- Witness for C7: empty domain on U = [0,0,0,0] with k = 2, m = 1; a
domain of width 1 with step 2 giving one sample; and k = 3 with m = 1. -/
theorem efficientBSpline_degenerate_domains_witness :
    (efficientBSpline [] [(0 : ℚ), 0, 0, 0] [] 2 1 1).verts = [] ∧
    (efficientBSpline [((0:ℚ),(0:ℚ),(0:ℚ)), ((1:ℚ),(0:ℚ),(0:ℚ))]
        (standardKnot 2 1) [1] 2 1 2).verts.length = 1 ∧
    ((standardKnot 3 1).getD (3-1) 0 = 0 ∧ (standardKnot 3 1).getD (1+1) 0 = 0) :=
  ⟨efficientBSpline_degenerate_domains.1 [] [(0 : ℚ), 0, 0, 0] [] 2 1 1
      (by with_unfolding_all decide),
   efficientBSpline_degenerate_domains.2.1 _ (standardKnot 2 1) [1] 2 1 2
      (by norm_num) (by with_unfolding_all decide) (by with_unfolding_all decide),
   efficientBSpline_degenerate_domains.2.2 3 1 (by norm_num) (by norm_num)⟩

/-- C8 counterexample: at window size 2 x 2 the round trip of the origin
through glPosToScreenCoords and the getCursorPosGL transform returns
(1/2, -1/2), not the original point. -/
theorem screen_roundtrip_counterexample :
    getCursorPosGLAt 2 2 (glPosToScreenCoords 2 2 ((0 : ℚ), (0 : ℚ))) =
      ((1/2 : ℚ), (-(1/2) : ℚ)) ∧
    ((1/2 : ℚ), (-(1/2) : ℚ)) ≠ ((0 : ℚ), (0 : ℚ)) := by
  constructor
  · with_unfolding_all decide
  · with_unfolding_all decide

/-- C8 amended: the round trip through glPosToScreenCoords and the
getCursorPosGL transform is off by exactly (1/w, -1/h): the half-pixel
offset is applied only on the inverse direction, so the composite is a
translation by one pixel-centre offset, not the identity. -/
theorem screen_roundtrip_offset (w h : ℚ) (p : ℚ × ℚ) (hw : 0 < w) (hh : 0 < h) :
    getCursorPosGLAt w h (glPosToScreenCoords w h p) = (p.1 + 1 / w, p.2 - 1 / h) := by
  unfold getCursorPosGLAt glPosToScreenCoords
  have hw0 : w ≠ 0 := ne_of_gt hw
  have hh0 : h ≠ 0 := ne_of_gt hh
  refine Prod.ext ?_ ?_
  · show 2 * (((1/2) * (p.1 + 1) * w + 1/2) / w) - 1 = p.1 + 1 / w
    field_simp
    ring
  · show 2 * (1 - ((1 - (1/2) * (p.2 + 1)) * h + 1/2) / h) - 1 = p.2 - 1 / h
    field_simp
    ring

/-- Witness for the amended C8 at w = h = 2 and p = (0, 0). -/
theorem screen_roundtrip_offset_witness :
    getCursorPosGLAt 2 2 (glPosToScreenCoords 2 2 ((0 : ℚ), (0 : ℚ))) =
      ((0 : ℚ) + 1 / 2, (0 : ℚ) - 1 / 2) :=
  screen_roundtrip_offset 2 2 ((0 : ℚ), (0 : ℚ)) (by norm_num) (by norm_num)

/-- C3 evaluation: with control points (0,0,0), (1,0,0), k = 2, m = 1 and
u_inc = 1/2, the emitted vertices are E[1] twice, the constant second
point; the line-segment value (1-u) E[0] + u E[1] at the first sample
u = 0 is E[0] = (0,0,0), which differs. -/
theorem efficientBSpline_two_points_constant :
    (efficientBSpline [((0:ℚ), (0:ℚ), (0:ℚ)), ((1:ℚ), (0:ℚ), (0:ℚ))]
        (standardKnot 2 1) [1] 2 1 (1/2)).verts =
      [((1:ℚ), (0:ℚ), (0:ℚ)), ((1:ℚ), (0:ℚ), (0:ℚ))] ∧
    ((1 : ℚ) - 0) • (((0:ℚ), (0:ℚ), (0:ℚ)) : Vec3) +
        (0 : ℚ) • (((1:ℚ), (0:ℚ), (0:ℚ)) : Vec3) = ((0:ℚ), (0:ℚ), (0:ℚ)) ∧
    (((1:ℚ), (0:ℚ), (0:ℚ)) : Vec3) ≠ ((0:ℚ), (0:ℚ), (0:ℚ)) := by
  refine ⟨?_, ?_, ?_⟩
  · have hstart : (standardKnot 2 1).getD (2-1) 0 = 0 := by
      with_unfolding_all decide
    have hstop : (standardKnot 2 1).getD (1+1) 0 = 1 := by
      with_unfolding_all decide
    have hs : sampleLoop 1 (1/2 : ℚ) 0 = [0, 1/2] := by
      rw [sampleLoop_pos (by norm_num) (by norm_num)]
      rw [sampleLoop_pos (by norm_num) (by norm_num)]
      rw [sampleLoop_nil (by norm_num)]
      norm_num
    unfold efficientBSpline
    rw [hstart, hstop, hs]
    with_unfolding_all decide
  · with_unfolding_all decide
  · with_unfolding_all decide

/-- C1 evaluation: with k = 3, m = 3, evenly indexed control points and
u = 1/4 (span d = 2), the per-parameter step of efficientBSpline returns
(5/4, 0, 0), while the standard de Boor algorithm on the same data returns
(7/8, 0, 0) at degree k-1 = 2 and (3/2, 0, 0) at degree k-2 = 1; the code
point matches neither. -/
theorem bsplinePoint_ne_deBoor :
    delta (standardKnot 3 3) (1/4) 3 3 = 2 ∧
    bsplinePoint
        [((0:ℚ),(0:ℚ),(0:ℚ)), ((1:ℚ),(0:ℚ),(0:ℚ)), ((2:ℚ),(0:ℚ),(0:ℚ)), ((3:ℚ),(0:ℚ),(0:ℚ))]
        (standardKnot 3 3) 3 3 (1/4) = ((5/4 : ℚ), (0:ℚ), (0:ℚ)) ∧
    deBoor
        [((0:ℚ),(0:ℚ),(0:ℚ)), ((1:ℚ),(0:ℚ),(0:ℚ)), ((2:ℚ),(0:ℚ),(0:ℚ)), ((3:ℚ),(0:ℚ),(0:ℚ))]
        (standardKnot 3 3) (1/4) 2 2 = ((7/8 : ℚ), (0:ℚ), (0:ℚ)) ∧
    deBoor
        [((0:ℚ),(0:ℚ),(0:ℚ)), ((1:ℚ),(0:ℚ),(0:ℚ)), ((2:ℚ),(0:ℚ),(0:ℚ)), ((3:ℚ),(0:ℚ),(0:ℚ))]
        (standardKnot 3 3) (1/4) 1 2 = ((3/2 : ℚ), (0:ℚ), (0:ℚ)) ∧
    ((5/4 : ℚ), (0:ℚ), (0:ℚ)) ≠ ((7/8 : ℚ), (0:ℚ), (0:ℚ)) ∧
    ((5/4 : ℚ), (0:ℚ), (0:ℚ)) ≠ ((3/2 : ℚ), (0:ℚ), (0:ℚ)) := by
  refine ⟨?_, ?_, ?_, ?_, ?_, ?_⟩ <;> with_unfolding_all decide

/-- C9: for every sampled parameter of efficientBSpline over the standard
knot vector, delta returns a natural span index j with k-1 <= j <= m, every
seeded control-point index j - i (i <= k-2) lies in [0, m], every working
list access in the blend stays inside the k-1 seeded entries, every knot
index used by omega stays inside the knot vector, and every omega
denominator is strictly positive; for m < k-1 the sample list is empty and
the claim holds vacuously. -/
theorem efficientBSpline_accesses_safe (k m : ℕ) (uinc : ℚ) (U : List ℚ)
    (hk : 2 ≤ k) (hm : 1 ≤ m) (huinc : 0 < uinc) (hU : U = standardKnot k m) :
    ∀ u ∈ sampleLoop (U.getD (m+1) 0) uinc (U.getD (k-1) 0),
    ∃ j : ℕ, delta U u k m = (j : ℤ) ∧ k - 1 ≤ j ∧ j ≤ m ∧
      (∀ i : ℕ, i ≤ k - 2 → i ≤ j ∧ j - i ≤ m) ∧
      (∀ r s : ℕ, 3 ≤ r → r ≤ k → s ≤ r - 3 →
        s + 1 ≤ k - 2 ∧ s ≤ j ∧ j - s + r - 1 ≤ m + k - 1 ∧
        0 < U.getD (j - s + r - 1) 0 - U.getD (j - s) 0) := by
  subst hU
  intro u hu
  have hk1 : (1 : ℕ) ≤ k := by omega
  by_cases hkm : k ≤ m + 1
  · obtain ⟨hul, huh⟩ := sampleLoop_mem _ _ _ hu
    have hstart : (standardKnot k m).getD (k-1) 0 = 0 := by
      rw [standardKnot_getD k m hk1 (by omega)]
      unfold knotEntry
      rw [if_pos (by omega)]
    have hstop : (standardKnot k m).getD (m+1) 0 = 1 := by
      rw [standardKnot_getD k m hk1 (by omega)]
      unfold knotEntry
      rw [if_neg (by omega), if_neg (by omega)]
    rw [hstart] at hul
    rw [hstop] at huh
    obtain ⟨j, hj, hjk, hjm, hsp⟩ := delta_standardKnot k m hk hkm hul huh
    refine ⟨j, hj, hjk, hjm, ?_, ?_⟩
    · intro i hi
      constructor
      · omega
      · omega
    · intro r s hr3 hrk hs
      have hsk : s ≤ k - 3 := by omega
      have hj2 : s + 2 ≤ j := by omega
      refine ⟨by omega, by omega, by omega, ?_⟩
      have e1 : (standardKnot k m).getD (j - s) 0 ≤ (standardKnot k m).getD j 0 := by
        rw [standardKnot_getD k m hk1 (by omega), standardKnot_getD k m hk1 (by omega)]
        exact knotEntry_mono k m hkm (by omega)
      have e2 : (standardKnot k m).getD (j+1) 0 ≤
          (standardKnot k m).getD (j - s + r - 1) 0 := by
        rw [standardKnot_getD k m hk1 (by omega), standardKnot_getD k m hk1 (by omega)]
        exact knotEntry_mono k m hkm (by omega)
      have hs1 := hsp.1
      have hs2 := hsp.2
      linarith
  · exfalso
    have hstart : (standardKnot k m).getD (k-1) 0 = 0 := by
      rw [standardKnot_getD k m hk1 (by omega)]
      unfold knotEntry
      rw [if_pos (by omega)]
    have hstop : (standardKnot k m).getD (m+1) 0 = 0 := by
      rw [standardKnot_getD k m hk1 (by omega)]
      unfold knotEntry
      rw [if_pos (by omega)]
    rw [hstart, hstop] at hu
    obtain ⟨hul, huh⟩ := sampleLoop_mem _ _ _ hu
    linarith

/-- Witness for C9 at k = 2, m = 1, u_inc = 1/2, with the first sampled
parameter u = U[k-1]. -/
theorem efficientBSpline_accesses_safe_witness :
    ∃ j : ℕ, delta (standardKnot 2 1) ((standardKnot 2 1).getD (2-1) 0) 2 1 = (j : ℤ) ∧
      2 - 1 ≤ j ∧ j ≤ 1 ∧
      (∀ i : ℕ, i ≤ 2 - 2 → i ≤ j ∧ j - i ≤ 1) ∧
      (∀ r s : ℕ, 3 ≤ r → r ≤ 2 → s ≤ r - 3 →
        s + 1 ≤ 2 - 2 ∧ s ≤ j ∧ j - s + r - 1 ≤ 1 + 2 - 1 ∧
        0 < (standardKnot 2 1).getD (j - s + r - 1) 0 -
          (standardKnot 2 1).getD (j - s) 0) :=
  efficientBSpline_accesses_safe 2 1 (1/2) (standardKnot 2 1)
    (by norm_num) (by norm_num) (by norm_num) rfl
    ((standardKnot 2 1).getD (2-1) 0)
    (by
      rw [sampleLoop_pos (by norm_num) (by with_unfolding_all decide)]
      exact List.mem_cons_self _ _)
